import Mathlib

/-!
Verification development for the MP4 progressive-download range-request cache
(videoRequestCache.ts). Byte buffers (ArrayBuffer) are embedded as `List Nat`,
byte offsets as `Int` (JavaScript numbers on integral values), timestamps as
`Nat` milliseconds, and the JavaScript `Map` as an insertion-ordered
association list. The clock (`Date.now()`) is passed explicitly as a `now`
argument to the operations that read it.
-/

set_option maxHeartbeats 1600000
set_option maxRecDepth 16384

namespace VideoCache

/-! ### Model of the platform URL parser

Models the WHATWG URL object used by `getCacheKey` (`new URL(url)`,
`searchParams.delete`, `toString`) at the character level: a URL splits into
scheme, host, path, query pairs and fragment, and reserializes canonically.
Percent-encoding and host case normalization are not modelled. -/

structure UrlModel where
  scheme : List Char
  host : List Char
  path : List Char
  query : List (List Char × List Char)
  fragment : Option (List Char)
  deriving DecidableEq

/-- Split a character list at the first occurrence of `c`: the part before it,
and (when `c` occurs) the part after it. -/
def splitAtFirst (c : Char) : List Char → List Char × Option (List Char)
  | [] => ([], none)
  | x :: xs =>
    if x = c then ([], some xs)
    else
      let p := splitAtFirst c xs
      (x :: p.1, p.2)

/-- Split a character list into the segments between occurrences of `c`. -/
def splitAll (c : Char) : List Char → List (List Char)
  | [] => [[]]
  | x :: xs =>
    match splitAll c xs with
    | [] => [[]]
    | y :: ys => if x = c then [] :: y :: ys else (x :: y) :: ys

/-- Parse a query string into name/value pairs: split on ampersands, drop
empty segments, split each segment at the first equals sign. -/
def parseQuery (l : List Char) : List (List Char × List Char) :=
  ((splitAll '&' l).filter (fun s => ¬ s = [])).map
    (fun seg =>
      let p := splitAtFirst '=' seg
      (p.1, p.2.getD []))

def serializePair (p : List Char × List Char) : List Char :=
  p.1 ++ '=' :: p.2

/-- Reserialize query pairs the way URLSearchParams does, ampersand
separated, always writing the equals sign. -/
def serializeQuery : List (List Char × List Char) → List Char
  | [] => []
  | [p] => serializePair p
  | p :: rest => serializePair p ++ '&' :: serializeQuery rest

/-- Parse a URL string into its components; `none` models a thrown TypeError
from the URL constructor. -/
def parseUrl (l : List Char) : Option UrlModel :=
  let f := splitAtFirst '#' l
  let q := splitAtFirst '?' f.1
  let s := splitAtFirst ':' q.1
  match s.2 with
  | none => none
  | some rest =>
    match rest with
    | c1 :: c2 :: hostpath =>
      if c1 = '/' ∧ c2 = '/' ∧ ¬ s.1 = [] then
        let hp := splitAtFirst '/' hostpath
        some
          { scheme := s.1
            host := hp.1
            path := match hp.2 with | none => ['/'] | some p => '/' :: p
            query := match q.2 with | none => [] | some qs => parseQuery qs
            fragment := f.2 }
      else none
    | _ => none

def serializeUrl (u : UrlModel) : List Char :=
  u.scheme ++ ':' :: '/' :: '/' :: u.host ++ u.path
    ++ (if u.query = [] then [] else '?' :: serializeQuery u.query)
    ++ (match u.fragment with | none => [] | some fr => '#' :: fr)

/-- The cache-busting parameter names stripped by `getCacheKey`. -/
def strippedParams : List (List Char) :=
  [['_'], ['t', 'i', 'm', 'e', 's', 't', 'a', 'm', 'p'], ['t']]

/-- The three `searchParams.delete` calls: remove every pair whose name is a
cache-busting parameter. -/
def deleteParams (u : UrlModel) : UrlModel :=
  { u with query := u.query.filter (fun p => ¬ p.1 ∈ strippedParams) }

/-- Generate cache key for URL (normalize query params); on parse failure the
raw string is returned. -/
def getCacheKey (url : List Char) : List Char :=
  match parseUrl url with
  | some u => serializeUrl (deleteParams u)
  | none => url

/-! ### Data model of the cache -/

structure CacheEntry where
  url : List Char
  data : List Nat
  rangeStart : Int
  rangeEnd : Int
  timestamp : Nat
  contentLength : Int
  etag : Option (List Char)
  deriving DecidableEq

structure VideoRequestCache where
  cache : List (List Char × List CacheEntry)
  totalSize : Int
  hitCount : Nat
  missCount : Nat
  deriving DecidableEq

def MP4_maxCacheSize : Int := 100 * 1024 * 1024
def MP4_cacheExpiry : Nat := 30 * 60 * 1000
def MP4_enableRangeCoalescing : Bool := true

def emptyCache : VideoRequestCache := ⟨[], 0, 0, 0⟩

/-- First-occurrence lookup in the insertion-ordered association list
modelling the JavaScript Map. -/
def mapGet (k : List Char) : List (List Char × List CacheEntry) → Option (List CacheEntry)
  | [] => none
  | kv :: rest => if kv.1 = k then some kv.2 else mapGet k rest

/-- Map.set: replace the value in place when the key exists, append otherwise. -/
def mapSet (k : List Char) (v : List CacheEntry) :
    List (List Char × List CacheEntry) → List (List Char × List CacheEntry)
  | [] => [(k, v)]
  | kv :: rest => if kv.1 = k then (k, v) :: rest else kv :: mapSet k v rest

/-- Map.delete: remove the key and its value. -/
def mapDelete (k : List Char) :
    List (List Char × List CacheEntry) → List (List Char × List CacheEntry)
  | [] => []
  | kv :: rest => if kv.1 = k then rest else kv :: mapDelete k rest

/-- Resolve an index the way `ArrayBuffer.slice` does: negative indices count
from the end, and everything clamps into `[0, len]`. -/
def jsIdx (len : Nat) (i : Int) : Nat :=
  if i < 0 then ((len : Int) + i).toNat else min i.toNat len

/-- `ArrayBuffer.slice(a, b)` on a byte list. -/
def bufSlice (l : List Nat) (a b : Int) : List Nat :=
  let s := jsIdx l.length a
  let e := jsIdx l.length b
  (l.drop s).take (e - s)

def entryBytes (e : CacheEntry) : Int := (e.data.length : Int)

def sumBytes (es : List CacheEntry) : Int := (es.map entryBytes).sum

def mapBytes (m : List (List Char × List CacheEntry)) : Int :=
  (m.map (fun kv => sumBytes kv.2)).sum

/-- Sum of stored byte lengths over all keys: the quantity the `totalSize`
field is supposed to track. -/
def totalStoredBytes (st : VideoRequestCache) : Int :=
  mapBytes st.cache

/-! ### findCachedRange and range coalescing -/

/-- The exact-containment scan of `findCachedRange`: the first entry whose
interval contains the request yields the slice. The requested end is
`end ?? entry.contentLength` (nullish coalescing), per entry. -/
def findExact (start : Int) (endOpt : Option Int) : List CacheEntry → Option (List Nat)
  | [] => none
  | e :: rest =>
    let requestedEnd := endOpt.getD e.contentLength
    if e.rangeStart ≤ start ∧ requestedEnd ≤ e.rangeEnd then
      some (bufSlice e.data (start - e.rangeStart) (requestedEnd - e.rangeStart + 1))
    else findExact start endOpt rest

/-- Stable insertion by `rangeStart` (models the stable `Array.sort` with the
numeric comparator `a.rangeStart - b.rangeStart`). -/
def sortInsert (e : CacheEntry) : List CacheEntry → List CacheEntry
  | [] => [e]
  | y :: ys => if e.rangeStart ≤ y.rangeStart then e :: y :: ys else y :: sortInsert e ys

def sortByStart (l : List CacheEntry) : List CacheEntry := l.foldr sortInsert []

/-- One loop iteration body of `tryCoalesceRanges` for an entry that starts
at or before the current position: the contributed slice (when any) and the
advanced position. -/
def coalesceStep (stop : Int) (e : CacheEntry) (cur : Int) (chunks : List (List Nat)) :
    Int × List (List Nat) :=
  if cur ≤ e.rangeEnd then
    let entryStart := max 0 (cur - e.rangeStart)
    let entryEnd := min (e.data.length : Int) (stop - e.rangeStart + 1)
    if entryStart < entryEnd then
      (e.rangeStart + entryEnd, chunks ++ [bufSlice e.data entryStart entryEnd])
    else (cur, chunks)
  else (cur, chunks)

/-- The walk of `tryCoalesceRanges`: returns `none` on an uncovered gap,
otherwise the final position together with the collected chunks (the early
break once the position passes `stop` included). -/
def coalesceGo (stop : Int) : List CacheEntry → Int → List (List Nat) →
    Option (Int × List (List Nat))
  | [], cur, chunks => some (cur, chunks)
  | e :: rest, cur, chunks =>
    if cur < e.rangeStart then none
    else
      let step := coalesceStep stop e cur chunks
      if stop < step.1 then some step
      else coalesceGo stop rest step.1 step.2

/-- Try to combine multiple cached ranges to cover the request. The guard
`if (!end) return null` also fires on `end == 0` (JavaScript falsiness). -/
def tryCoalesceRanges (entries : List CacheEntry) (start : Int) (endOpt : Option Int) :
    Option (List Nat) :=
  match endOpt with
  | none => none
  | some stop =>
    if stop = 0 then none
    else
      match coalesceGo stop (sortByStart entries) start [] with
      | none => none
      | some res => if res.1 ≤ stop then none else some res.2.flatten

/-- Find cached data that covers the requested range; returns the updated
cache state (expired entries lazily dropped, hit and miss counters bumped)
and the bytes on a hit. -/
def findCachedRange (st : VideoRequestCache) (url : List Char) (start : Int)
    (endOpt : Option Int) (now : Nat) : VideoRequestCache × Option (List Nat) :=
  let key := getCacheKey url
  match mapGet key st.cache with
  | none => ({ st with missCount := st.missCount + 1 }, none)
  | some entries =>
    if entries.length = 0 then ({ st with missCount := st.missCount + 1 }, none)
    else
      let validEntries := entries.filter (fun e => now - e.timestamp < MP4_cacheExpiry)
      let st1 :=
        if validEntries.length ≠ entries.length then
          { st with cache := mapSet key validEntries st.cache }
        else st
      match findExact start endOpt validEntries with
      | some buf => ({ st1 with hitCount := st1.hitCount + 1 }, some buf)
      | none =>
        if MP4_enableRangeCoalescing then
          match tryCoalesceRanges validEntries start endOpt with
          | some buf => ({ st1 with hitCount := st1.hitCount + 1 }, some buf)
          | none => ({ st1 with missCount := st1.missCount + 1 }, none)
        else ({ st1 with missCount := st1.missCount + 1 }, none)

/-! ### storeRange, eviction and the clear operations -/

/-- Inner scan of `evictOldest` over the entries of one key, carrying the
running index and the best candidate (key, index, timestamp) so far; the
strict comparison keeps the first minimum in scan order. -/
def scanEntries (k : List Char) : List CacheEntry → Nat →
    Option (List Char × Nat × Nat) → Option (List Char × Nat × Nat)
  | [], _, best => best
  | e :: es, i, best =>
    let best1 :=
      match best with
      | none => some (k, i, e.timestamp)
      | some b => if e.timestamp < b.2.2 then some (k, i, e.timestamp) else some b
    scanEntries k es (i + 1) best1

/-- Outer scan of `evictOldest` over the map in insertion order. -/
def scanOldest (best : Option (List Char × Nat × Nat)) :
    List (List Char × List CacheEntry) → Option (List Char × Nat × Nat)
  | [] => best
  | kv :: rest => scanOldest (scanEntries kv.1 kv.2 0 best) rest

/-- Evict oldest cache entry: remove the globally oldest entry, subtract its
size, and drop the key when its list becomes empty. -/
def evictOldest (st : VideoRequestCache) : VideoRequestCache :=
  match scanOldest none st.cache with
  | none => st
  | some b =>
    match mapGet b.1 st.cache with
    | none => st
    | some entries =>
      match entries.get? b.2.1 with
      | none => st
      | some removed =>
        let entries1 := entries.eraseIdx b.2.1
        let cache1 := mapSet b.1 entries1 st.cache
        let cache2 := if entries1 = [] then mapDelete b.1 cache1 else cache1
        { st with cache := cache2, totalSize := st.totalSize - entryBytes removed }

/-- The `while (totalSize + data.byteLength > maxCacheSize) evictOldest()`
loop, fueled: `none` means the loop had not exited within `fuel` iterations. -/
def evictLoop : Nat → Int → VideoRequestCache → Option VideoRequestCache
  | 0, d, st => if MP4_maxCacheSize < st.totalSize + d then none else some st
  | n + 1, d, st =>
    if MP4_maxCacheSize < st.totalSize + d then evictLoop n d (evictOldest st)
    else some st

/-- Store response data in cache. Returns `none` when the eviction loop does
not terminate within the given fuel. -/
def storeRange (fuel : Nat) (st : VideoRequestCache) (url : List Char) (data : List Nat)
    (rangeStart rangeEnd contentLength : Int) (etag : Option (List Char)) (now : Nat) :
    Option VideoRequestCache :=
  let key := getCacheKey url
  match evictLoop fuel (data.length : Int) st with
  | none => none
  | some st1 =>
    let entry : CacheEntry :=
      { url := key, data := data, rangeStart := rangeStart, rangeEnd := rangeEnd
        timestamp := now, contentLength := contentLength, etag := etag }
    let existing := (mapGet key st1.cache).getD []
    let filtered := existing.filter (fun e => e.rangeEnd < rangeStart ∨ rangeEnd < e.rangeStart)
    let removedSize := sumBytes existing
    let newSize := sumBytes filtered + (data.length : Int)
    some { st1 with
      cache := mapSet key (filtered ++ [entry]) st1.cache
      totalSize := st1.totalSize - removedSize + newSize }

/-- Clear cache for specific URL. -/
def clearUrl (st : VideoRequestCache) (url : List Char) : VideoRequestCache :=
  let key := getCacheKey url
  match mapGet key st.cache with
  | none => st
  | some entries =>
    { st with totalSize := st.totalSize - sumBytes entries, cache := mapDelete key st.cache }

/-- Clear all cache. -/
def clearAll (st : VideoRequestCache) : VideoRequestCache :=
  { st with cache := [], totalSize := 0 }

/-- One `storeRange` invocation of a call sequence. -/
structure StoreCall where
  url : List Char
  data : List Nat
  rangeStart : Int
  rangeEnd : Int
  contentLength : Int
  etag : Option (List Char)
  now : Nat
  deriving DecidableEq

/-- Run a sequence of `storeRange` calls, each with the given fuel. -/
def runStores (fuel : Nat) : List StoreCall → VideoRequestCache → Option VideoRequestCache
  | [], st => some st
  | c :: cs, st =>
    match storeRange fuel st c.url c.data c.rangeStart c.rangeEnd c.contentLength c.etag c.now with
    | none => none
    | some st1 => runStores fuel cs st1

/-! ### Basic lemmas about the association-list map and byte sums -/

theorem mapGet_mapSet_self (k : List Char) (v : List CacheEntry)
    (m : List (List Char × List CacheEntry)) : mapGet k (mapSet k v m) = some v := by
  induction m with
  | nil => simp [mapGet, mapSet]
  | cons kv rest ih =>
    by_cases h : kv.1 = k
    · simp [mapGet, mapSet, h]
    · simp [mapGet, mapSet, h, ih]

theorem mem_mapSet (k : List Char) (v : List CacheEntry)
    (m : List (List Char × List CacheEntry)) (kv : List Char × List CacheEntry)
    (h : kv ∈ mapSet k v m) : kv ∈ m ∨ kv = (k, v) := by
  induction m with
  | nil => simpa [mapSet] using h
  | cons kv0 rest ih =>
    by_cases h0 : kv0.1 = k
    · simp only [mapSet, h0, if_pos, List.mem_cons] at h
      rcases h with h | h
      · exact Or.inr h
      · exact Or.inl (List.mem_cons_of_mem _ h)
    · simp only [mapSet, h0, if_neg, not_false_iff, List.mem_cons] at h
      rcases h with h | h
      · exact Or.inl (by simp [h])
      · rcases ih h with h1 | h1
        · exact Or.inl (List.mem_cons_of_mem _ h1)
        · exact Or.inr h1

theorem mem_mapDelete (k : List Char) (m : List (List Char × List CacheEntry))
    (kv : List Char × List CacheEntry) (h : kv ∈ mapDelete k m) : kv ∈ m := by
  induction m with
  | nil => simp [mapDelete] at h
  | cons kv0 rest ih =>
    by_cases h0 : kv0.1 = k
    · simp only [mapDelete, h0, if_pos] at h
      exact List.mem_cons_of_mem _ h
    · simp only [mapDelete, h0, if_neg, not_false_iff, List.mem_cons] at h
      rcases h with h | h
      · exact List.mem_cons.mpr (Or.inl h)
      · exact List.mem_cons_of_mem _ (ih h)

theorem mapGet_mem (k : List Char) (m : List (List Char × List CacheEntry))
    (es : List CacheEntry) (h : mapGet k m = some es) : (k, es) ∈ m := by
  induction m with
  | nil => simp [mapGet] at h
  | cons kv rest ih =>
    by_cases h0 : kv.1 = k
    · simp only [mapGet, h0, if_pos, Option.some.injEq] at h
      exact List.mem_cons.mpr (Or.inl (by cases kv; simp_all))
    · simp only [mapGet, h0, if_neg, not_false_iff] at h
      exact List.mem_cons_of_mem _ (ih h)

theorem entryBytes_nonneg (e : CacheEntry) : 0 ≤ entryBytes e := by
  simp [entryBytes]

theorem sumBytes_nonneg (es : List CacheEntry) : 0 ≤ sumBytes es := by
  induction es with
  | nil => simp [sumBytes]
  | cons e rest ih =>
    have := entryBytes_nonneg e
    simp only [sumBytes, List.map_cons, List.sum_cons] at *
    omega

theorem sumBytes_cons (e : CacheEntry) (es : List CacheEntry) :
    sumBytes (e :: es) = entryBytes e + sumBytes es := by
  simp [sumBytes]

theorem sumBytes_append (l1 l2 : List CacheEntry) :
    sumBytes (l1 ++ l2) = sumBytes l1 + sumBytes l2 := by
  simp [sumBytes]

theorem sumBytes_filter_le (p : CacheEntry → Bool) (es : List CacheEntry) :
    sumBytes (es.filter p) ≤ sumBytes es := by
  induction es with
  | nil => simp [sumBytes]
  | cons e rest ih =>
    have he := entryBytes_nonneg e
    by_cases h : p e
    · simp only [List.filter_cons, h, if_pos, sumBytes_cons]
      omega
    · simp only [List.filter_cons, h, if_neg, Bool.false_eq_true, not_false_iff, sumBytes_cons]
      omega

theorem sumBytes_eraseIdx (es : List CacheEntry) (i : Nat) (x : CacheEntry)
    (h : es.get? i = some x) : sumBytes (es.eraseIdx i) = sumBytes es - entryBytes x := by
  induction es generalizing i with
  | nil => simp [List.get?] at h
  | cons e rest ih =>
    cases i with
    | zero =>
      simp only [List.get?] at h
      cases h
      simp [List.eraseIdx, sumBytes_cons]
    | succ j =>
      simp only [List.get?] at h
      have := ih j h
      simp only [List.eraseIdx, sumBytes_cons, this]
      ring

theorem mapBytes_cons (kv : List Char × List CacheEntry)
    (m : List (List Char × List CacheEntry)) :
    mapBytes (kv :: m) = sumBytes kv.2 + mapBytes m := by
  simp [mapBytes]

theorem mapBytes_mapSet (k : List Char) (v : List CacheEntry)
    (m : List (List Char × List CacheEntry)) :
    mapBytes (mapSet k v m) = mapBytes m - sumBytes ((mapGet k m).getD []) + sumBytes v := by
  induction m with
  | nil => simp [mapBytes, mapSet, mapGet, sumBytes]
  | cons kv rest ih =>
    by_cases h : kv.1 = k
    · simp only [mapSet, h, if_pos, mapGet, mapBytes_cons, Option.getD_some]
      ring
    · simp only [mapSet, h, if_neg, not_false_iff, mapGet, mapBytes_cons, ih]
      ring

theorem mapBytes_mapDelete (k : List Char) (m : List (List Char × List CacheEntry)) :
    mapBytes (mapDelete k m) = mapBytes m - sumBytes ((mapGet k m).getD []) := by
  induction m with
  | nil => simp [mapBytes, mapDelete, mapGet, sumBytes]
  | cons kv rest ih =>
    by_cases h : kv.1 = k
    · simp only [mapDelete, h, if_pos, mapGet, mapBytes_cons, Option.getD_some]
      ring
    · simp only [mapDelete, h, if_neg, not_false_iff, mapGet, mapBytes_cons, ih]
      ring

/-! ### Eviction loop facts -/

theorem evictOldest_emptyCache : evictOldest emptyCache = emptyCache := rfl

theorem evictLoop_totalSize : ∀ (fuel : Nat) (d : Int) (st st1 : VideoRequestCache),
    evictLoop fuel d st = some st1 → st1.totalSize + d ≤ MP4_maxCacheSize
  | 0, d, st, st1, h => by
    by_cases hc : MP4_maxCacheSize < st.totalSize + d
    · simp [evictLoop, hc] at h
    · simp only [evictLoop, hc, if_neg, not_false_iff, Option.some.injEq] at h
      subst h
      omega
  | n + 1, d, st, st1, h => by
    by_cases hc : MP4_maxCacheSize < st.totalSize + d
    · simp only [evictLoop, hc, if_pos] at h
      exact evictLoop_totalSize n d (evictOldest st) st1 h

    · simp only [evictLoop, hc, if_neg, not_false_iff, Option.some.injEq] at h
      subst h
      omega

theorem evictLoop_empty_diverges (d : Int) (hd : MP4_maxCacheSize < d) :
    ∀ fuel, evictLoop fuel d emptyCache = none := by
  intro fuel
  induction fuel with
  | zero =>
    have hc : MP4_maxCacheSize < emptyCache.totalSize + d := by
      simp only [emptyCache]
      omega
    simp [evictLoop, hc]
  | succ n ih =>
    have hc : MP4_maxCacheSize < emptyCache.totalSize + d := by
      simp only [emptyCache]
      omega
    simp only [evictLoop, hc, if_pos, evictOldest_emptyCache]
    exact ih

/-- A shared tiny URL whose parse fails, so that the cache key is the raw
string itself. -/
def urlU : List Char := "u".toList

/-- C2: the claim says a single range larger than the whole capacity evicts
down to an empty cache and is still inserted. The code instead spins in the
eviction while-loop forever, because evicting from an empty cache removes
nothing and the loop condition stays true: no amount of fuel makes
`storeRange` return. -/
theorem c2_storeRange_oversized_diverges :
    ∀ fuel, storeRange fuel emptyCache urlU (List.replicate (100 * 1024 * 1024 + 1) 0)
      0 (100 * 1024 * 1024) (100 * 1024 * 1024 + 1) none 0 = none := by
  intro fuel
  have hd : MP4_maxCacheSize < ((List.replicate (100 * 1024 * 1024 + 1) (0 : Nat)).length : Int) := by
    simp only [List.length_replicate, MP4_maxCacheSize]
    norm_num
  simp only [storeRange, evictLoop_empty_diverges _ hd fuel]

/-- C5: whenever `storeRange` returns, the totalSize field is within the
configured capacity: the eviction loop exits only once the new data fits, and
the subsequent update can only shrink the pre-insertion total. -/
theorem c5_capacity_bound (fuel : Nat) (st : VideoRequestCache) (url : List Char)
    (data : List Nat) (rangeStart rangeEnd contentLength : Int) (etag : Option (List Char))
    (now : Nat) (st2 : VideoRequestCache)
    (h : storeRange fuel st url data rangeStart rangeEnd contentLength etag now = some st2) :
    st2.totalSize ≤ MP4_maxCacheSize := by
  simp only [storeRange] at h
  cases hev : evictLoop fuel (data.length : Int) st with
  | none => rw [hev] at h; simp at h
  | some st1 =>
    rw [hev] at h
    simp only [Option.some.injEq] at h
    have hle := evictLoop_totalSize fuel (data.length : Int) st st1 hev
    have hfle := sumBytes_filter_le
      (fun e => decide (e.rangeEnd < rangeStart ∨ rangeEnd < e.rangeStart))
      ((mapGet (getCacheKey url) st1.cache).getD [])
    subst h
    simp only []
    omega

/-- Witness for C5: a small store into the empty cache stays within capacity. -/
theorem c5_capacity_bound_witness :
    (⟨[(urlU, [⟨urlU, [1, 2, 3], 0, 2, 0, 3, none⟩])], 3, 0, 0⟩ : VideoRequestCache).totalSize
      ≤ MP4_maxCacheSize :=
  c5_capacity_bound 1 emptyCache urlU [1, 2, 3] 0 2 3 none 0
    ⟨[(urlU, [⟨urlU, [1, 2, 3], 0, 2, 0, 3, none⟩])], 3, 0, 0⟩ (by decide)

/-- C3: an entry that covers the whole resource (rangeStart 0,
rangeEnd = contentLength - 1 = 9, stored just now) does not satisfy the
open-ended request [0, null]: the code resolves the requested end to
`contentLength` (10), the containment test 9 >= 10 fails, coalescing refuses
open ends, and the call is a miss where the claim requires a hit. -/
theorem c3_open_ended_request_misses :
    (findCachedRange
        ⟨[(urlU, [⟨urlU, List.replicate 10 7, 0, 9, 0, 10, none⟩])], 10, 0, 0⟩
        urlU 0 none 0).2 = none
    ∧ ((0 : Int) ≤ 0 ∧ (9 : Int) = 10 - 1 ∧ (0 : Nat) - 0 < MP4_cacheExpiry) := by
  decide

/-! ### The size bookkeeping invariant -/

/-- The invariant the spec asserts: the totalSize field equals the exact sum
of stored entry byte lengths. -/
def SizeExact (st : VideoRequestCache) : Prop := st.totalSize = totalStoredBytes st

theorem sizeExact_evictOldest (st : VideoRequestCache) (h : SizeExact st) :
    SizeExact (evictOldest st) := by
  cases hs : scanOldest none st.cache with
  | none => simp only [evictOldest, hs]; exact h
  | some b =>
    cases hg : mapGet b.1 st.cache with
    | none => simp only [evictOldest, hs, hg]; exact h
    | some entries =>
      cases hget : entries.get? b.2.1 with
      | none => simp only [evictOldest, hs, hg, hget]; exact h
      | some removed =>
        simp only [evictOldest, hs, hg, hget]
        have herase := sumBytes_eraseIdx entries b.2.1 removed hget
        have hms := mapBytes_mapSet b.1 (entries.eraseIdx b.2.1) st.cache
        rw [hg] at hms
        simp only [Option.getD_some] at hms
        by_cases he : entries.eraseIdx b.2.1 = []
        · simp only [he, if_pos, SizeExact, totalStoredBytes] at *
          rw [mapBytes_mapDelete, mapGet_mapSet_self]
          simp only [Option.getD_some, hms]
          have hz0 : sumBytes ([] : List CacheEntry) = 0 := rfl
          omega
        · simp only [he, if_neg, not_false_iff, SizeExact, totalStoredBytes] at *
          rw [hms]
          omega

theorem sizeExact_evictLoop : ∀ (fuel : Nat) (d : Int) (st st1 : VideoRequestCache),
    evictLoop fuel d st = some st1 → SizeExact st → SizeExact st1
  | 0, d, st, st1, h, hw => by
    by_cases hc : MP4_maxCacheSize < st.totalSize + d
    · simp [evictLoop, hc] at h
    · simp only [evictLoop, hc, if_neg, not_false_iff, Option.some.injEq] at h
      subst h
      exact hw
  | n + 1, d, st, st1, h, hw => by
    by_cases hc : MP4_maxCacheSize < st.totalSize + d
    · simp only [evictLoop, hc, if_pos] at h
      exact sizeExact_evictLoop n d (evictOldest st) st1 h (sizeExact_evictOldest st hw)
    · simp only [evictLoop, hc, if_neg, not_false_iff, Option.some.injEq] at h
      subst h
      exact hw

theorem sizeExact_storeRange (fuel : Nat) (st : VideoRequestCache) (url : List Char)
    (data : List Nat) (rangeStart rangeEnd contentLength : Int) (etag : Option (List Char))
    (now : Nat) (st2 : VideoRequestCache)
    (h : storeRange fuel st url data rangeStart rangeEnd contentLength etag now = some st2)
    (hw : SizeExact st) : SizeExact st2 := by
  simp only [storeRange] at h
  cases hev : evictLoop fuel (data.length : Int) st with
  | none => rw [hev] at h; simp at h
  | some st1 =>
    rw [hev] at h
    simp only [Option.some.injEq] at h
    have hw1 : SizeExact st1 := sizeExact_evictLoop fuel _ st st1 hev hw
    subst h
    simp only [SizeExact, totalStoredBytes] at *
    rw [mapBytes_mapSet, sumBytes_append, sumBytes_cons]
    simp only [entryBytes, sumBytes]
    simp only [List.map_nil, List.sum_nil]
    omega

theorem sizeExact_clearUrl (st : VideoRequestCache) (url : List Char) (h : SizeExact st) :
    SizeExact (clearUrl st url) := by
  simp only [clearUrl]
  cases hg : mapGet (getCacheKey url) st.cache with
  | none => exact h
  | some entries =>
    simp only [SizeExact, totalStoredBytes] at *
    rw [mapBytes_mapDelete, hg]
    simp only [Option.getD_some]
    omega

theorem sizeExact_clearAll (st : VideoRequestCache) : SizeExact (clearAll st) := by
  simp [SizeExact, totalStoredBytes, clearAll, mapBytes]

/-- The lookup path never touches totalSize, and its lazy expiry purge can
only shrink the stored bytes (without compensating totalSize). -/
theorem findCachedRange_totalSize_bytes (st : VideoRequestCache) (url : List Char)
    (start : Int) (endOpt : Option Int) (now : Nat) :
    (findCachedRange st url start endOpt now).1.totalSize = st.totalSize ∧
    totalStoredBytes (findCachedRange st url start endOpt now).1 ≤ totalStoredBytes st := by
  simp only [findCachedRange]
  cases hg : mapGet (getCacheKey url) st.cache with
  | none => exact ⟨rfl, le_refl _⟩
  | some entries =>
    by_cases hz : entries.length = 0
    · simp only [hz, if_pos]
      exact ⟨trivial, le_refl _⟩
    · simp only [hz, if_neg, not_false_iff]
      set validEntries := entries.filter (fun e => now - e.timestamp < MP4_cacheExpiry)
        with hv
      set st1 := (if validEntries.length ≠ entries.length then
          { st with cache := mapSet (getCacheKey url) validEntries st.cache }
        else st) with hs1
      have hts : st1.totalSize = st.totalSize ∧ totalStoredBytes st1 ≤ totalStoredBytes st := by
        rw [hs1]
        split
        · refine ⟨rfl, ?_⟩
          simp only [totalStoredBytes]
          rw [mapBytes_mapSet, hg]
          simp only [Option.getD_some]
          have := sumBytes_filter_le
            (fun e => decide (now - e.timestamp < MP4_cacheExpiry)) entries
          rw [hv]
          omega
        · exact ⟨rfl, le_refl _⟩
      cases hfe : findExact start endOpt validEntries with
      | some buf => exact hts
      | none =>
        cases htc : tryCoalesceRanges validEntries start endOpt with
        | some buf =>
          simp only [MP4_enableRangeCoalescing, if_true, htc]
          exact hts
        | none =>
          simp only [MP4_enableRangeCoalescing, if_true, htc]
          exact hts

/-- C1 (corrected): from a state where totalSize is exact, `storeRange` (when
it returns), `clearUrl` and `clearAll` keep totalSize equal to the exact sum
of stored entry byte lengths, but `findCachedRange` only preserves the field
unchanged while possibly purging expired entries, so after a purging lookup
totalSize exceeds the stored sum by exactly the purged bytes. -/
theorem c1_size_invariant_amended (st : VideoRequestCache) (h : SizeExact st) :
    (∀ fuel url data rangeStart rangeEnd contentLength etag now st2,
      storeRange fuel st url data rangeStart rangeEnd contentLength etag now = some st2 →
      st2.totalSize = totalStoredBytes st2)
    ∧ (∀ url, (clearUrl st url).totalSize = totalStoredBytes (clearUrl st url))
    ∧ (clearAll st).totalSize = totalStoredBytes (clearAll st)
    ∧ (∀ url start endOpt now,
        (findCachedRange st url start endOpt now).1.totalSize
          = totalStoredBytes (findCachedRange st url start endOpt now).1
            + (totalStoredBytes st - totalStoredBytes (findCachedRange st url start endOpt now).1)
        ∧ totalStoredBytes (findCachedRange st url start endOpt now).1 ≤ totalStoredBytes st) := by
  refine ⟨?_, ?_, sizeExact_clearAll st, ?_⟩
  · intro fuel url data rangeStart rangeEnd contentLength etag now st2 hst
    exact sizeExact_storeRange fuel st url data rangeStart rangeEnd contentLength etag now st2 hst h
  · intro url
    exact sizeExact_clearUrl st url h
  · intro url start endOpt now
    obtain ⟨h1, h2⟩ := findCachedRange_totalSize_bytes st url start endOpt now
    refine ⟨?_, h2⟩
    rw [h1, h]
    omega

/-- C1 (counterexample to the claim as stated): store a 5-byte entry, let it
expire, and look it up. The lookup (a public operation) purges the entry but
leaves totalSize at 5 while the stored sum is 0. -/
theorem c1_size_invariant_counterexample :
    storeRange 1 emptyCache urlU [9, 9, 9, 9, 9] 0 4 5 none 0
        = some ⟨[(urlU, [⟨urlU, [9, 9, 9, 9, 9], 0, 4, 0, 5, none⟩])], 5, 0, 0⟩
    ∧ (findCachedRange ⟨[(urlU, [⟨urlU, [9, 9, 9, 9, 9], 0, 4, 0, 5, none⟩])], 5, 0, 0⟩
        urlU 0 (some 4) 1800000).2 = none
    ∧ (findCachedRange ⟨[(urlU, [⟨urlU, [9, 9, 9, 9, 9], 0, 4, 0, 5, none⟩])], 5, 0, 0⟩
        urlU 0 (some 4) 1800000).1.totalSize = 5
    ∧ totalStoredBytes (findCachedRange ⟨[(urlU, [⟨urlU, [9, 9, 9, 9, 9], 0, 4, 0, 5, none⟩])], 5, 0, 0⟩
        urlU 0 (some 4) 1800000).1 = 0 := by
  decide

/-- Witness for the amended C1 at a concrete store into the empty cache. -/
theorem c1_size_invariant_amended_witness :
    (⟨[(urlU, [⟨urlU, [1, 2], 0, 1, 0, 2, none⟩])], 2, 0, 0⟩ : VideoRequestCache).totalSize
      = totalStoredBytes ⟨[(urlU, [⟨urlU, [1, 2], 0, 1, 0, 2, none⟩])], 2, 0, 0⟩ :=
  (c1_size_invariant_amended emptyCache rfl).1 1 urlU [1, 2] 0 1 2 none 0
    ⟨[(urlU, [⟨urlU, [1, 2], 0, 1, 0, 2, none⟩])], 2, 0, 0⟩ (by decide)

/-! ### The non-overlap invariant -/

/-- Two entries have non-intersecting closed byte intervals. -/
def entriesDisjoint (a b : CacheEntry) : Prop :=
  ∀ p : Int, ¬(a.rangeStart ≤ p ∧ p ≤ a.rangeEnd ∧ b.rangeStart ≤ p ∧ p ≤ b.rangeEnd)

def NonOverlapInv (st : VideoRequestCache) : Prop :=
  ∀ kv ∈ st.cache, kv.2.Pairwise entriesDisjoint

theorem nonOverlapInv_emptyCache : NonOverlapInv emptyCache := by
  intro kv hkv
  simp [emptyCache] at hkv

theorem nonOverlapInv_evictOldest (st : VideoRequestCache) (h : NonOverlapInv st) :
    NonOverlapInv (evictOldest st) := by
  cases hs : scanOldest none st.cache with
  | none => simp only [evictOldest, hs]; exact h
  | some b =>
    cases hg : mapGet b.1 st.cache with
    | none => simp only [evictOldest, hs, hg]; exact h
    | some entries =>
      cases hget : entries.get? b.2.1 with
      | none => simp only [evictOldest, hs, hg, hget]; exact h
      | some removed =>
        simp only [evictOldest, hs, hg, hget]
        have hpe : (entries.eraseIdx b.2.1).Pairwise entriesDisjoint :=
          (h (b.1, entries) (mapGet_mem _ _ _ hg)).sublist (List.eraseIdx_sublist entries b.2.1)
        intro kv hkv
        by_cases he : entries.eraseIdx b.2.1 = []
        · simp only [he, if_pos] at hkv
          rcases mem_mapSet _ _ _ _ (mem_mapDelete _ _ _ hkv) with hm | hm
          · exact h kv hm
          · rw [hm]
            exact List.Pairwise.nil
        · simp only [he, if_neg, not_false_iff] at hkv
          rcases mem_mapSet _ _ _ _ hkv with hm | hm
          · exact h kv hm
          · rw [hm]
            exact hpe

theorem nonOverlapInv_evictLoop : ∀ (fuel : Nat) (d : Int) (st st1 : VideoRequestCache),
    evictLoop fuel d st = some st1 → NonOverlapInv st → NonOverlapInv st1
  | 0, d, st, st1, h, hi => by
    by_cases hc : MP4_maxCacheSize < st.totalSize + d
    · simp [evictLoop, hc] at h
    · simp only [evictLoop, hc, if_neg, not_false_iff, Option.some.injEq] at h
      subst h
      exact hi
  | n + 1, d, st, st1, h, hi => by
    by_cases hc : MP4_maxCacheSize < st.totalSize + d
    · simp only [evictLoop, hc, if_pos] at h
      exact nonOverlapInv_evictLoop n d (evictOldest st) st1 h (nonOverlapInv_evictOldest st hi)
    · simp only [evictLoop, hc, if_neg, not_false_iff, Option.some.injEq] at h
      subst h
      exact hi

theorem nonOverlapInv_storeRange (fuel : Nat) (st : VideoRequestCache) (url : List Char)
    (data : List Nat) (rangeStart rangeEnd contentLength : Int) (etag : Option (List Char))
    (now : Nat) (st2 : VideoRequestCache)
    (h : storeRange fuel st url data rangeStart rangeEnd contentLength etag now = some st2)
    (hi : NonOverlapInv st) : NonOverlapInv st2 := by
  simp only [storeRange] at h
  cases hev : evictLoop fuel (data.length : Int) st with
  | none => rw [hev] at h; simp at h
  | some st1 =>
    rw [hev] at h
    simp only [Option.some.injEq] at h
    have hi1 := nonOverlapInv_evictLoop fuel _ st st1 hev hi
    subst h
    intro kv hkv
    rcases mem_mapSet _ _ _ _ hkv with hm | hm
    · exact hi1 kv hm
    · rw [hm]
      rw [List.pairwise_append]
      refine ⟨?_, List.pairwise_singleton _ _, ?_⟩
      · cases hg : mapGet (getCacheKey url) st1.cache with
        | none => simp [hg]
        | some ex =>
          simp only [hg, Option.getD_some]
          exact (hi1 (getCacheKey url, ex) (mapGet_mem _ _ _ hg)).filter _
      · intro a ha b2 hb2
        rw [List.mem_singleton] at hb2
        subst hb2
        have hpred := of_decide_eq_true (List.mem_filter.mp ha).2
        intro p hp
        simp only [] at hp
        omega

theorem nonOverlapInv_runStores (fuel : Nat) :
    ∀ (ops : List StoreCall) (st st2 : VideoRequestCache),
    runStores fuel ops st = some st2 → NonOverlapInv st → NonOverlapInv st2
  | [], st, st2, h, hi => by
    simp only [runStores, Option.some.injEq] at h
    subst h
    exact hi
  | c :: cs, st, st2, h, hi => by
    simp only [runStores] at h
    cases hs : storeRange fuel st c.url c.data c.rangeStart c.rangeEnd c.contentLength
        c.etag c.now with
    | none => rw [hs] at h; simp at h
    | some st1 =>
      rw [hs] at h
      exact nonOverlapInv_runStores fuel cs st1 st2 h
        (nonOverlapInv_storeRange fuel st c.url c.data c.rangeStart c.rangeEnd
          c.contentLength c.etag c.now st1 hs hi)

/-- C4: after any sequence of `storeRange` calls from the empty cache (each
with rangeStart <= rangeEnd), the entries stored under every key are pairwise
non-overlapping: a store first drops every existing entry whose interval
intersects the new one. -/
theorem c4_non_overlap_invariant (fuel : Nat) (ops : List StoreCall)
    (st2 : VideoRequestCache) (hord : ∀ c ∈ ops, c.rangeStart ≤ c.rangeEnd)
    (hrun : runStores fuel ops emptyCache = some st2) :
    ∀ k es, mapGet k st2.cache = some es → es.Pairwise entriesDisjoint := by
  intro k es hg
  exact nonOverlapInv_runStores fuel ops emptyCache st2 hrun nonOverlapInv_emptyCache
    (k, es) (mapGet_mem _ _ _ hg)

/-- Witness for C4: two overlapping stores for the same URL leave a single
entry, trivially pairwise disjoint. -/
theorem c4_non_overlap_invariant_witness :
    ([⟨urlU, [7, 7, 7], 1, 3, 0, 9, none⟩] : List CacheEntry).Pairwise entriesDisjoint :=
  c4_non_overlap_invariant 1
    [⟨urlU, [5, 5, 5, 5], 0, 3, 9, none, 0⟩, ⟨urlU, [7, 7, 7], 1, 3, 9, none, 0⟩]
    ⟨[(urlU, [⟨urlU, [7, 7, 7], 1, 3, 0, 9, none⟩])], 3, 0, 0⟩
    (by decide) (by decide) urlU [⟨urlU, [7, 7, 7], 1, 3, 0, 9, none⟩] (by decide)

/-! ### Coalescing lemmas -/

theorem mem_sortInsert (e x : CacheEntry) (l : List CacheEntry)
    (h : x ∈ sortInsert e l) : x = e ∨ x ∈ l := by
  induction l with
  | nil =>
    simp only [sortInsert, List.mem_singleton] at h
    exact Or.inl h
  | cons y ys ih =>
    by_cases hc : e.rangeStart ≤ y.rangeStart
    · simp only [sortInsert, hc, if_pos, List.mem_cons] at h
      rcases h with h | h | h
      · exact Or.inl h
      · exact Or.inr (List.mem_cons.mpr (Or.inl h))
      · exact Or.inr (List.mem_cons_of_mem _ h)
    · simp only [sortInsert, hc, if_neg, not_false_iff, List.mem_cons] at h
      rcases h with h | h
      · exact Or.inr (List.mem_cons.mpr (Or.inl h))
      · rcases ih h with h1 | h1
        · exact Or.inl h1
        · exact Or.inr (List.mem_cons_of_mem _ h1)

theorem mem_sortByStart (x : CacheEntry) (l : List CacheEntry)
    (h : x ∈ sortByStart l) : x ∈ l := by
  induction l with
  | nil => simp [sortByStart] at h
  | cons y ys ih =>
    simp only [sortByStart, List.foldr_cons] at h
    rcases mem_sortInsert y x _ h with h1 | h1
    · exact List.mem_cons.mpr (Or.inl h1)
    · exact List.mem_cons_of_mem _ (ih h1)

theorem findExact_none (start stop : Int) (l : List CacheEntry)
    (h : ∀ e ∈ l, ¬(e.rangeStart ≤ start ∧ stop ≤ e.rangeEnd)) :
    findExact start (some stop) l = none := by
  induction l with
  | nil => rfl
  | cons e rest ih =>
    have he := h e (List.mem_cons_self e rest)
    simp only [findExact, Option.getD_some]
    rw [if_neg he]
    exact ih (fun x hx => h x (List.mem_cons_of_mem e hx))

theorem bufSlice_length (l : List Nat) (a b : Int) (h0 : 0 ≤ a) (hab : a ≤ b)
    (hb : b ≤ (l.length : Int)) : ((bufSlice l a b).length : Int) = b - a := by
  simp only [bufSlice, jsIdx]
  rw [if_neg (by omega), if_neg (by omega)]
  simp only [List.length_take, List.length_drop]
  omega

/-- When the entry starts at or before the current position and does not
reach the uncovered position p (its data length agreeing with its declared
interval), the step cannot move the position past p. -/
theorem coalesceStep_le (stop p : Int) (e : CacheEntry) (cur : Int)
    (chunks : List (List Nat))
    (hlen : (e.data.length : Int) = e.rangeEnd - e.rangeStart + 1)
    (hcov : ¬(e.rangeStart ≤ p ∧ p ≤ e.rangeEnd))
    (hgap : e.rangeStart ≤ cur) (hcur : cur ≤ p) :
    (coalesceStep stop e cur chunks).1 ≤ p := by
  simp only [coalesceStep]
  split_ifs with hc hpush
  · simp only []
    omega
  · exact hcur
  · exact hcur

/-- The step advances the position, never past max cur (stop + 1), and the
flattened output grows by exactly the advance. -/
theorem coalesceStep_advance (stop : Int) (e : CacheEntry) (cur : Int)
    (chunks : List (List Nat)) (hgap : e.rangeStart ≤ cur) :
    cur ≤ (coalesceStep stop e cur chunks).1
    ∧ (coalesceStep stop e cur chunks).1 ≤ max cur (stop + 1)
    ∧ (((coalesceStep stop e cur chunks).2.flatten.length : Int)
        = (chunks.flatten.length : Int) + ((coalesceStep stop e cur chunks).1 - cur)) := by
  simp only [coalesceStep]
  split_ifs with hc hpush
  · have hlen := bufSlice_length e.data (max 0 (cur - e.rangeStart))
      (min ((e.data.length : Int)) (stop - e.rangeStart + 1))
      (by omega) (by omega) (by omega)
    refine ⟨?_, ?_, ?_⟩
    · simp only []
      omega
    · simp only []
      omega
    · simp only [List.flatten_append, List.flatten_cons, List.flatten_nil,
        List.append_nil, List.length_append]
      push_cast
      omega
  · refine ⟨le_refl _, le_max_left _ _, ?_⟩
    simp only []
    omega
  · refine ⟨le_refl _, le_max_left _ _, ?_⟩
    simp only []
    omega

theorem coalesceGo_le_of_uncovered (stop p : Int) :
    ∀ (l : List CacheEntry) (cur : Int) (chunks : List (List Nat))
      (res : Int × List (List Nat)),
    (∀ e ∈ l, (e.data.length : Int) = e.rangeEnd - e.rangeStart + 1
       ∧ ¬(e.rangeStart ≤ p ∧ p ≤ e.rangeEnd)) →
    cur ≤ p → coalesceGo stop l cur chunks = some res → res.1 ≤ p
  | [], cur, chunks, res, _, hcur, h => by
    simp only [coalesceGo, Option.some.injEq] at h
    rw [← h]
    exact hcur
  | e :: rest, cur, chunks, res, hl, hcur, h => by
    by_cases hgap : cur < e.rangeStart
    · simp [coalesceGo, hgap] at h
    · simp only [coalesceGo, hgap, if_neg, not_false_iff] at h
      obtain ⟨hlen, hcov⟩ := hl e (List.mem_cons_self e rest)
      have hstep := coalesceStep_le stop p e cur chunks hlen hcov (by omega) hcur
      by_cases hbrk : stop < (coalesceStep stop e cur chunks).1
      · rw [if_pos hbrk] at h
        simp only [Option.some.injEq] at h
        rw [← h]
        exact hstep
      · rw [if_neg hbrk] at h
        exact coalesceGo_le_of_uncovered stop p rest _ _ res
          (fun x hx => hl x (List.mem_cons_of_mem e hx)) hstep h

theorem coalesceGo_length (stop : Int) :
    ∀ (l : List CacheEntry) (cur : Int) (chunks : List (List Nat))
      (res : Int × List (List Nat)),
    coalesceGo stop l cur chunks = some res →
    cur ≤ res.1 ∧ res.1 ≤ max cur (stop + 1)
    ∧ ((res.2.flatten.length : Int) = (chunks.flatten.length : Int) + (res.1 - cur))
  | [], cur, chunks, res, h => by
    simp only [coalesceGo, Option.some.injEq] at h
    rw [← h]
    refine ⟨le_refl _, le_max_left _ _, ?_⟩
    simp only []
    omega
  | e :: rest, cur, chunks, res, h => by
    by_cases hgap : cur < e.rangeStart
    · simp [coalesceGo, hgap] at h
    · simp only [coalesceGo, hgap, if_neg, not_false_iff] at h
      obtain ⟨ha1, ha2, ha3⟩ := coalesceStep_advance stop e cur chunks (by omega)
      by_cases hbrk : stop < (coalesceStep stop e cur chunks).1
      · rw [if_pos hbrk] at h
        simp only [Option.some.injEq] at h
        rw [← h]
        exact ⟨ha1, ha2, ha3⟩
      · rw [if_neg hbrk] at h
        obtain ⟨hb1, hb2, hb3⟩ := coalesceGo_length stop rest _ _ res h
        refine ⟨by omega, by omega, by omega⟩

theorem tryCoalesce_none_of_uncovered (entries : List CacheEntry) (start stop p : Int)
    (hcons : ∀ e ∈ entries, (e.data.length : Int) = e.rangeEnd - e.rangeStart + 1)
    (huncov : ∀ e ∈ entries, ¬(e.rangeStart ≤ p ∧ p ≤ e.rangeEnd))
    (hsp : start ≤ p) (hps : p ≤ stop) :
    tryCoalesceRanges entries start (some stop) = none := by
  simp only [tryCoalesceRanges]
  by_cases h0 : stop = 0
  · simp [h0]
  · rw [if_neg h0]
    cases hgo : coalesceGo stop (sortByStart entries) start [] with
    | none => rfl
    | some res =>
      have hle := coalesceGo_le_of_uncovered stop p (sortByStart entries) start [] res
        (fun e he => ⟨hcons e (mem_sortByStart e entries he),
          huncov e (mem_sortByStart e entries he)⟩) hsp hgo
      show (if res.1 ≤ stop then none else some res.2.flatten) = none
      rw [if_pos (show res.1 ≤ stop by omega)]

/-- C7: when some byte position p inside the closed request [start, stop] is
covered by no stored entry for the key (entries consistent: data length
matches the declared interval), range coalescing returns null and the whole
lookup is a full miss. -/
theorem c7_gap_rejection (st : VideoRequestCache) (url : List Char)
    (entries : List CacheEntry) (start stop p : Int) (now : Nat)
    (hmap : mapGet (getCacheKey url) st.cache = some entries)
    (hcons : ∀ e ∈ entries, (e.data.length : Int) = e.rangeEnd - e.rangeStart + 1)
    (hsp : start ≤ p) (hps : p ≤ stop)
    (huncov : ∀ e ∈ entries, ¬(e.rangeStart ≤ p ∧ p ≤ e.rangeEnd)) :
    tryCoalesceRanges entries start (some stop) = none
    ∧ (findCachedRange st url start (some stop) now).2 = none := by
  constructor
  · exact tryCoalesce_none_of_uncovered entries start stop p hcons huncov hsp hps
  · simp only [findCachedRange, hmap]
    by_cases hz : entries.length = 0
    · simp [hz]
    · simp only [hz, if_neg, not_false_iff]
      set validEntries := entries.filter (fun e => now - e.timestamp < MP4_cacheExpiry)
        with hv
      have hsub : ∀ e ∈ validEntries, e ∈ entries := by
        intro e he
        rw [hv] at he
        exact (List.mem_filter.mp he).1
      have hfe : findExact start (some stop) validEntries = none := by
        refine findExact_none start stop validEntries ?_
        intro e he hcontain
        exact huncov e (hsub e he) ⟨by omega, by omega⟩
      have htc : tryCoalesceRanges validEntries start (some stop) = none :=
        tryCoalesce_none_of_uncovered validEntries start stop p
          (fun e he => hcons e (hsub e he)) (fun e he => huncov e (hsub e he)) hsp hps
      rw [hfe, htc]
      rfl

/-- Witness for C7: entries [0,399] and [600,999] with position 500 uncovered
make the request [100,800] a full miss. -/
theorem c7_gap_rejection_witness :
    tryCoalesceRanges
        [⟨urlU, List.replicate 400 1, 0, 399, 0, 1000, none⟩,
         ⟨urlU, List.replicate 400 2, 600, 999, 0, 1000, none⟩] 100 (some 800) = none
    ∧ (findCachedRange
        ⟨[(urlU, [⟨urlU, List.replicate 400 1, 0, 399, 0, 1000, none⟩,
            ⟨urlU, List.replicate 400 2, 600, 999, 0, 1000, none⟩])], 800, 0, 0⟩
        urlU 100 (some 800) 0).2 = none :=
  c7_gap_rejection
    ⟨[(urlU, [⟨urlU, List.replicate 400 1, 0, 399, 0, 1000, none⟩,
        ⟨urlU, List.replicate 400 2, 600, 999, 0, 1000, none⟩])], 800, 0, 0⟩
    urlU
    [⟨urlU, List.replicate 400 1, 0, 399, 0, 1000, none⟩,
     ⟨urlU, List.replicate 400 2, 600, 999, 0, 1000, none⟩]
    100 800 500 0 (by decide) (by decide) (by decide) (by decide) (by decide)

/-- C10: a successful coalesce of the closed request [start, stop] over
non-overlapping, consistent entries returns exactly stop - start + 1 bytes. -/
theorem c10_coalesce_length (entries : List CacheEntry) (start stop : Int) (r : List Nat)
    (hse : start ≤ stop)
    (hpair : entries.Pairwise entriesDisjoint)
    (hcons : ∀ e ∈ entries, (e.data.length : Int) = e.rangeEnd - e.rangeStart + 1)
    (h : tryCoalesceRanges entries start (some stop) = some r) :
    (r.length : Int) = stop - start + 1 := by
  simp only [tryCoalesceRanges] at h
  by_cases h0 : stop = 0
  · rw [if_pos h0] at h
    cases h
  · rw [if_neg h0] at h
    cases hgo : coalesceGo stop (sortByStart entries) start [] with
    | none =>
      rw [hgo] at h
      exact Option.noConfusion h
    | some res =>
      rw [hgo] at h
      have hr : (if res.1 ≤ stop then (none : Option (List Nat)) else some res.2.flatten)
          = some r := h
      by_cases hle : res.1 ≤ stop
      · rw [if_pos hle] at hr
        exact Option.noConfusion hr
      · rw [if_neg hle] at hr
        simp only [Option.some.injEq] at hr
        obtain ⟨h1, h2, h3⟩ := coalesceGo_length stop (sortByStart entries) start [] res hgo
        rw [← hr]
        simp only [List.flatten_nil, List.length_nil] at h3
        omega

/-- Witness for C10: a single [0,9] entry coalesced over [2,5] yields 4 bytes. -/
theorem c10_coalesce_length_witness :
    (([3, 3, 3, 3] : List Nat).length : Int) = 5 - 2 + 1 :=
  c10_coalesce_length [⟨urlU, List.replicate 10 3, 0, 9, 0, 10, none⟩] 2 5 [3, 3, 3, 3]
    (by decide) (List.pairwise_singleton _ _) (by decide) (by decide)

/-- Characterization of a lookup that meets only expired entries under the
key: the expired entries are dropped and persisted as an empty list, the
exact scan sees nothing, and the result is whatever coalescing over no
entries yields. -/
theorem findCachedRange_all_expired (st : VideoRequestCache) (url : List Char)
    (entries : List CacheEntry) (start : Int) (endOpt : Option Int) (now : Nat)
    (hmap : mapGet (getCacheKey url) st.cache = some entries)
    (hne : entries ≠ [])
    (hexp : ∀ e ∈ entries, MP4_cacheExpiry ≤ now - e.timestamp) :
    findCachedRange st url start endOpt now
      = match tryCoalesceRanges [] start endOpt with
        | some buf =>
          ({ st with
              cache := mapSet (getCacheKey url) [] st.cache
              hitCount := st.hitCount + 1 }, some buf)
        | none =>
          ({ st with
              cache := mapSet (getCacheKey url) [] st.cache
              missCount := st.missCount + 1 }, none) := by
  have hfil : entries.filter (fun e => now - e.timestamp < MP4_cacheExpiry) = [] := by
    rw [List.filter_eq_nil]
    intro e he
    simp only [decide_eq_true_eq, not_lt]
    exact hexp e he
  have hlen0 : ¬ entries.length = 0 := by
    cases entries with
    | nil => exact absurd rfl hne
    | cons a l => simp
  have hcond : ([] : List CacheEntry).length ≠ entries.length := by
    simp only [List.length_nil]
    omega
  have h00 : ¬ (0 = entries.length) := fun hh => hlen0 hh.symm
  simp only [findCachedRange, hmap, hlen0, if_neg, not_false_iff, hfil, hcond, if_pos,
    findExact, MP4_enableRangeCoalescing, if_true]
  cases htc : tryCoalesceRanges [] start endOpt <;> simp [htc, h00]

/-- Coalescing over no entries yields null for a null end, a zero end, or
whenever the start does not exceed the end. -/
theorem tryCoalesce_nil_none (start : Int) (endOpt : Option Int)
    (hd : endOpt = none ∨ endOpt = some 0 ∨ (∃ s, endOpt = some s ∧ start ≤ s)) :
    tryCoalesceRanges [] start endOpt = none := by
  rcases hd with hd | hd | ⟨s, hd, hss⟩ <;> subst hd
  · rfl
  · rfl
  · simp only [tryCoalesceRanges]
    by_cases h0 : s = 0
    · rw [if_pos h0]
    · rw [if_neg h0]
      show (if start ≤ s then none else some (([] : List (List Nat)).flatten)) = none
      rw [if_pos hss]

/-- C9 (amended): a lookup that finds only expired entries purges them from
the stored entry set under the key, and returns a miss whenever the request
has a null end, end 0, or start <= end; only in the remaining degenerate case
(a nonzero end smaller than start) does it return an empty buffer instead. -/
theorem c9_expiry_amended (st : VideoRequestCache) (url : List Char)
    (entries : List CacheEntry) (start : Int) (endOpt : Option Int) (now : Nat)
    (hmap : mapGet (getCacheKey url) st.cache = some entries)
    (hne : entries ≠ [])
    (hexp : ∀ e ∈ entries, MP4_cacheExpiry ≤ now - e.timestamp) :
    ((endOpt = none ∨ endOpt = some 0 ∨ (∃ s, endOpt = some s ∧ start ≤ s)) →
      (findCachedRange st url start endOpt now).2 = none)
    ∧ mapGet (getCacheKey url) (findCachedRange st url start endOpt now).1.cache = some [] := by
  have hchar := findCachedRange_all_expired st url entries start endOpt now hmap hne hexp
  constructor
  · intro hd
    rw [hchar, tryCoalesce_nil_none start endOpt hd]
  · rw [hchar]
    cases htc : tryCoalesceRanges [] start endOpt with
    | none =>
      simp only [htc]
      exact mapGet_mapSet_self _ _ _
    | some buf =>
      simp only [htc]
      exact mapGet_mapSet_self _ _ _

/-- C9 (counterexample to the claim as stated): an expired-only key queried
with the degenerate closed range [5,3] yields an empty buffer, counted as a
hit, not the miss the claim requires of every lookup that finds only expired
entries. -/
theorem c9_expiry_counterexample :
    (findCachedRange ⟨[(urlU, [⟨urlU, [9, 9], 0, 1, 0, 10, none⟩])], 2, 0, 0⟩
        urlU 5 (some 3) 1800000).2 = some []
    ∧ MP4_cacheExpiry ≤ 1800000 - 0 := by
  decide

/-- Witness for the amended C9: an expired entry queried over [0,9] is a miss
and is purged from the entry set. -/
theorem c9_expiry_amended_witness :
    (findCachedRange ⟨[(urlU, [⟨urlU, [9, 9], 0, 1, 0, 10, none⟩])], 2, 0, 0⟩
        urlU 0 (some 9) 1800000).2 = none
    ∧ mapGet (getCacheKey urlU)
        (findCachedRange ⟨[(urlU, [⟨urlU, [9, 9], 0, 1, 0, 10, none⟩])], 2, 0, 0⟩
          urlU 0 (some 9) 1800000).1.cache = some [] := by
  have h := c9_expiry_amended ⟨[(urlU, [⟨urlU, [9, 9], 0, 1, 0, 10, none⟩])], 2, 0, 0⟩
    urlU [⟨urlU, [9, 9], 0, 1, 0, 10, none⟩] 0 (some 9) 1800000
    (by decide) (by decide) (by decide)
  exact ⟨h.1 (Or.inr (Or.inr ⟨9, rfl, by norm_num⟩)), h.2⟩

/-! ### The concrete coalescing scenario of C6 -/

theorem getCacheKey_urlU : getCacheKey urlU = urlU := by decide

theorem mapGet_single (es : List CacheEntry) : mapGet urlU [(urlU, es)] = some es := by
  simp [mapGet]

theorem c6step1 (d1 : List Nat) (h1 : d1.length = 500) (now : Nat) :
    coalesceStep 700 (⟨urlU, d1, 0, 499, now, 1000, none⟩ : CacheEntry) 200 []
      = (500, [bufSlice d1 200 500]) := by
  simp only [coalesceStep]
  norm_num [h1, max_def, min_def]

theorem c6step2 (d1 d2 : List Nat) (h2 : d2.length = 500) (now : Nat) :
    coalesceStep 700 (⟨urlU, d2, 500, 999, now, 1000, none⟩ : CacheEntry) 500
        [bufSlice d1 200 500]
      = (701, [bufSlice d1 200 500, bufSlice d2 0 201]) := by
  simp only [coalesceStep]
  norm_num [h2, max_def, min_def]

theorem c6go (d1 d2 : List Nat) (h1 : d1.length = 500) (h2 : d2.length = 500) (now : Nat) :
    coalesceGo 700 [⟨urlU, d1, 0, 499, now, 1000, none⟩, ⟨urlU, d2, 500, 999, now, 1000, none⟩]
        200 []
      = some (701, [bufSlice d1 200 500, bufSlice d2 0 201]) := by
  simp only [coalesceGo]
  rw [c6step1 d1 h1 now, c6step2 d1 d2 h2 now]
  norm_num

theorem c6coalesce (d1 d2 : List Nat) (h1 : d1.length = 500) (h2 : d2.length = 500) (now : Nat) :
    tryCoalesceRanges [⟨urlU, d1, 0, 499, now, 1000, none⟩,
        ⟨urlU, d2, 500, 999, now, 1000, none⟩] 200 (some 700)
      = some (bufSlice d1 200 500 ++ (bufSlice d2 0 201 ++ [])) := by
  simp only [tryCoalesceRanges]
  rw [if_neg (by norm_num : ¬(700 : Int) = 0)]
  have hsort : sortByStart [(⟨urlU, d1, 0, 499, now, 1000, none⟩ : CacheEntry),
      ⟨urlU, d2, 500, 999, now, 1000, none⟩]
      = [⟨urlU, d1, 0, 499, now, 1000, none⟩, ⟨urlU, d2, 500, 999, now, 1000, none⟩] := by
    norm_num [sortByStart, sortInsert]
  rw [hsort, c6go d1 d2 h1 h2 now]
  norm_num [List.flatten]

theorem c6sliceA (d1 : List Nat) (h1 : d1.length = 500) :
    bufSlice d1 200 500 = d1.drop 200 := by
  simp only [bufSlice, jsIdx, h1]
  norm_num
  rw [show Int.toNat 500 = 500 from rfl, show Int.toNat 200 = 200 from rfl]
  rw [show (500 : Nat) - 200 = 300 from rfl]
  exact List.take_all_of_le (by simp [List.length_drop, h1])

theorem c6sliceB (d2 : List Nat) (h2 : d2.length = 500) :
    bufSlice d2 0 201 = d2.take 201 := by
  simp only [bufSlice, jsIdx, h2]
  norm_num
  rfl

theorem c6sliceC (d1 d2 : List Nat) (h1 : d1.length = 500) (h2 : d2.length = 500) :
    bufSlice (d1 ++ d2) 200 701 = d1.drop 200 ++ d2.take 201 := by
  have happ : (d1 ++ d2).length = 1000 := by simp [h1, h2]
  simp only [bufSlice, jsIdx, happ]
  norm_num
  rw [show Int.toNat 701 = 701 from rfl, show Int.toNat 200 = 200 from rfl]
  rw [show (701 : Nat) - 200 = 501 from rfl]
  rw [List.drop_append_eq_append_drop, h1]
  rw [show (200 : Nat) - 500 = 0 from rfl, List.drop_zero]
  rw [List.take_append_eq_append_take, List.length_drop, h1]
  rw [show (500 : Nat) - 200 = 300 from rfl, show (501 : Nat) - 300 = 201 from rfl]
  rw [List.take_all_of_le (by simp [List.length_drop, h1] : (d1.drop 200).length ≤ 501)]

theorem c6lookup (d1 d2 : List Nat) (h1 : d1.length = 500) (h2 : d2.length = 500) (now : Nat) :
    (findCachedRange
        ⟨[(urlU, [⟨urlU, d1, 0, 499, now, 1000, none⟩, ⟨urlU, d2, 500, 999, now, 1000, none⟩])],
          1000, 0, 0⟩
        urlU 200 (some 700) now).2
      = some (bufSlice d1 200 500 ++ (bufSlice d2 0 201 ++ [])) := by
  have hfil : List.filter (fun e => decide (now - e.timestamp < MP4_cacheExpiry))
      [(⟨urlU, d1, 0, 499, now, 1000, none⟩ : CacheEntry), ⟨urlU, d2, 500, 999, now, 1000, none⟩]
      = [⟨urlU, d1, 0, 499, now, 1000, none⟩, ⟨urlU, d2, 500, 999, now, 1000, none⟩] := by
    simp [MP4_cacheExpiry]
  have hfe : findExact 200 (some 700)
      [(⟨urlU, d1, 0, 499, now, 1000, none⟩ : CacheEntry), ⟨urlU, d2, 500, 999, now, 1000, none⟩]
      = none := by
    norm_num [findExact]
  simp only [findCachedRange, getCacheKey_urlU, mapGet_single, hfil, hfe,
    c6coalesce d1 d2 h1 h2 now]
  simp [MP4_enableRangeCoalescing]

theorem c6singleLookup (d1 d2 : List Nat) (now : Nat) :
    (findCachedRange ⟨[(urlU, [⟨urlU, d1 ++ d2, 0, 999, now, 1000, none⟩])], 1000, 0, 0⟩
        urlU 200 (some 700) now).2 = some (bufSlice (d1 ++ d2) 200 701) := by
  have hfil : List.filter (fun e => decide (now - e.timestamp < MP4_cacheExpiry))
      [(⟨urlU, d1 ++ d2, 0, 999, now, 1000, none⟩ : CacheEntry)]
      = [⟨urlU, d1 ++ d2, 0, 999, now, 1000, none⟩] := by
    simp [MP4_cacheExpiry]
  have hfe : findExact 200 (some 700) [(⟨urlU, d1 ++ d2, 0, 999, now, 1000, none⟩ : CacheEntry)]
      = some (bufSlice (d1 ++ d2) 200 701) := by
    norm_num [findExact]
  simp only [findCachedRange, getCacheKey_urlU, mapGet_single, hfil, hfe]
  simp

/-- C6: two contiguous unexpired entries [0,499] and [500,999] holding the
two halves of the resource content answer the request [200,700] with 501
bytes, byte-for-byte what a single unfragmented entry [0,999] holding the
whole content would return. -/
theorem c6_coalescing_correct (d1 d2 : List Nat) (h1 : d1.length = 500)
    (h2 : d2.length = 500) (now : Nat) :
    (findCachedRange
        ⟨[(urlU, [⟨urlU, d1, 0, 499, now, 1000, none⟩, ⟨urlU, d2, 500, 999, now, 1000, none⟩])],
          1000, 0, 0⟩
        urlU 200 (some 700) now).2 = some (bufSlice (d1 ++ d2) 200 701)
    ∧ (bufSlice (d1 ++ d2) 200 701).length = 501
    ∧ (findCachedRange ⟨[(urlU, [⟨urlU, d1 ++ d2, 0, 999, now, 1000, none⟩])], 1000, 0, 0⟩
        urlU 200 (some 700) now).2 = some (bufSlice (d1 ++ d2) 200 701) := by
  have hjoin : bufSlice d1 200 500 ++ (bufSlice d2 0 201 ++ [])
      = bufSlice (d1 ++ d2) 200 701 := by
    rw [c6sliceA d1 h1, c6sliceB d2 h2, c6sliceC d1 d2 h1 h2, List.append_nil]
  refine ⟨?_, ?_, c6singleLookup d1 d2 now⟩
  · have hres := c6lookup d1 d2 h1 h2 now
    rw [hjoin] at hres
    exact hres
  · rw [c6sliceC d1 d2 h1 h2]
    simp [h1, h2]

/-- Witness for C6 at concrete buffer contents. -/
theorem c6_coalescing_correct_witness :
    (findCachedRange
        ⟨[(urlU, [⟨urlU, List.replicate 500 4, 0, 499, 0, 1000, none⟩,
            ⟨urlU, List.replicate 500 8, 500, 999, 0, 1000, none⟩])], 1000, 0, 0⟩
        urlU 200 (some 700) 0).2
      = some (bufSlice (List.replicate 500 4 ++ List.replicate 500 8) 200 701)
    ∧ (bufSlice (List.replicate 500 4 ++ List.replicate 500 8) 200 701).length = 501
    ∧ (findCachedRange
        ⟨[(urlU, [⟨urlU, List.replicate 500 4 ++ List.replicate 500 8, 0, 999, 0, 1000, none⟩])],
          1000, 0, 0⟩
        urlU 200 (some 700) 0).2
      = some (bufSlice (List.replicate 500 4 ++ List.replicate 500 8) 200 701) :=
  c6_coalescing_correct (List.replicate 500 4) (List.replicate 500 8)
    (by simp) (by simp) 0


/-! ### URL model lemmas and C8 -/

theorem splitAtFirst_fst_not_mem (c : Char) (l : List Char) : c ∉ (splitAtFirst c l).1 := by
  induction l with
  | nil => simp [splitAtFirst]
  | cons x xs ih =>
    by_cases hx : x = c
    · simp [splitAtFirst, hx]
    · simp only [splitAtFirst, hx, if_neg, not_false_iff, List.mem_cons]
      rintro (h | h)
      · exact hx h.symm
      · exact ih h

theorem splitAtFirst_decomp (c : Char) (l : List Char) :
    l = (splitAtFirst c l).1
      ++ (match (splitAtFirst c l).2 with | none => [] | some r => c :: r) := by
  induction l with
  | nil => simp [splitAtFirst]
  | cons x xs ih =>
    by_cases hx : x = c
    · simp [splitAtFirst, hx]
    · simp only [splitAtFirst, hx, if_neg, not_false_iff, List.cons_append, List.cons.injEq]
      exact ⟨trivial, ih⟩

theorem splitAtFirst_of_not_mem (c : Char) (l : List Char) (h : c ∉ l) :
    splitAtFirst c l = (l, none) := by
  induction l with
  | nil => rfl
  | cons x xs ih =>
    have hx : ¬ x = c := fun hh => h (by simp [hh])
    have hxs : c ∉ xs := fun hh => h (List.mem_cons_of_mem _ hh)
    simp [splitAtFirst, hx, ih hxs]

theorem splitAtFirst_append (c : Char) (a b : List Char) (h : c ∉ a) :
    splitAtFirst c (a ++ c :: b) = (a, some b) := by
  induction a with
  | nil => simp [splitAtFirst]
  | cons x xs ih =>
    have hx : ¬ x = c := fun hh => h (by simp [hh])
    have hxs : c ∉ xs := fun hh => h (List.mem_cons_of_mem _ hh)
    simp [splitAtFirst, hx, ih hxs]

theorem splitAtFirst_snd_mem (c : Char) (l a b : List Char)
    (h : splitAtFirst c l = (a, some b)) : ∀ x ∈ b, x ∈ l := by
  intro x hx
  have hd := splitAtFirst_decomp c l
  rw [h] at hd
  rw [hd]
  simp [hx]

theorem splitAtFirst_fst_mem (c : Char) (l : List Char) :
    ∀ x ∈ (splitAtFirst c l).1, x ∈ l := by
  intro x hx
  have hd := splitAtFirst_decomp c l
  rw [hd]
  simp [hx]



theorem splitAll_ne_nil (c : Char) (l : List Char) : splitAll c l ≠ [] := by
  cases l with
  | nil => simp [splitAll]
  | cons x xs =>
    simp only [splitAll]
    cases splitAll c xs with
    | nil => simp
    | cons y ys =>
      by_cases hx : x = c <;> simp [hx]

theorem splitAll_of_not_mem (c : Char) (l : List Char) (h : c ∉ l) :
    splitAll c l = [l] := by
  induction l with
  | nil => rfl
  | cons x xs ih =>
    have hx : ¬ x = c := fun hh => h (by simp [hh])
    have hxs : c ∉ xs := fun hh => h (List.mem_cons_of_mem _ hh)
    simp only [splitAll, ih hxs, hx, if_neg, not_false_iff]

theorem splitAll_append (c : Char) (a b : List Char) (h : c ∉ a) :
    splitAll c (a ++ c :: b) = a :: splitAll c b := by
  induction a with
  | nil =>
    simp only [List.nil_append, splitAll]
    cases hsp : splitAll c b with
    | nil => exact absurd hsp (splitAll_ne_nil c b)
    | cons y ys => simp
  | cons x xs ih =>
    have hx : ¬ x = c := fun hh => h (by simp [hh])
    have hxs : c ∉ xs := fun hh => h (List.mem_cons_of_mem _ hh)
    simp only [List.cons_append, splitAll]
    rw [show (xs.append (c :: b)) = xs ++ c :: b from rfl, ih hxs]
    simp [hx]

theorem mem_splitAll (c : Char) (l : List Char) (s : List Char) (hs : s ∈ splitAll c l) :
    c ∉ s ∧ ∀ x ∈ s, x ∈ l := by
  induction l generalizing s with
  | nil =>
    simp only [splitAll, List.mem_singleton] at hs
    subst hs
    simp
  | cons x xs ih =>
    simp only [splitAll] at hs
    cases hsp : splitAll c xs with
    | nil => exact absurd hsp (splitAll_ne_nil c xs)
    | cons y ys =>
      rw [hsp] at hs
      have hs2 : s ∈ (if x = c then ([] : List Char) :: y :: ys else (x :: y) :: ys) := hs
      by_cases hx : x = c
      · rw [if_pos hx] at hs2
        rcases List.mem_cons.mp hs2 with h1 | h1
        · subst h1
          simp
        · have := ih s (by rw [hsp]; exact h1)
          exact ⟨this.1, fun z hz => List.mem_cons_of_mem _ (this.2 z hz)⟩
      · rw [if_neg hx] at hs2
        rcases List.mem_cons.mp hs2 with h1 | h1
        · subst h1
          have hy := ih y (by rw [hsp]; exact List.mem_cons_self y ys)
          constructor
          · simp only [List.mem_cons]
            rintro (hh | hh)
            · exact hx hh.symm
            · exact hy.1 hh
          · intro z hz
            rcases List.mem_cons.mp hz with hz | hz
            · simp [hz]
            · exact List.mem_cons_of_mem _ (hy.2 z hz)
        · have := ih s (by rw [hsp]; exact List.mem_cons_of_mem _ h1)
          exact ⟨this.1, fun z hz => List.mem_cons_of_mem _ (this.2 z hz)⟩



def QueryValid (ps : List (List Char × List Char)) : Prop :=
  ∀ p ∈ ps, '=' ∉ p.1 ∧ '&' ∉ p.1 ∧ '#' ∉ p.1 ∧ '&' ∉ p.2 ∧ '#' ∉ p.2

theorem amp_not_mem_serializePair (p : List Char × List Char)
    (h1 : '&' ∉ p.1) (h2 : '&' ∉ p.2) : '&' ∉ serializePair p := by
  intro hmem
  simp only [serializePair, List.mem_append, List.mem_cons] at hmem
  rcases hmem with h | h | h
  · exact h1 h
  · exact absurd h (by decide)
  · exact h2 h

theorem hash_not_mem_serializePair (p : List Char × List Char)
    (h1 : '#' ∉ p.1) (h2 : '#' ∉ p.2) : '#' ∉ serializePair p := by
  intro hmem
  simp only [serializePair, List.mem_append, List.mem_cons] at hmem
  rcases hmem with h | h | h
  · exact h1 h
  · exact absurd h (by decide)
  · exact h2 h

theorem serializePair_ne_nil (p : List Char × List Char) : serializePair p ≠ [] := by
  simp [serializePair]

theorem parseQuery_serializeQuery (ps : List (List Char × List Char))
    (hv : QueryValid ps) (hne : ps ≠ []) : parseQuery (serializeQuery ps) = ps := by
  induction ps with
  | nil => exact absurd rfl hne
  | cons p rest ih =>
    cases rest with
    | nil =>
      obtain ⟨h1, h2, h3, h4, h5⟩ := hv p (List.mem_cons_self p [])
      simp only [serializeQuery, parseQuery]
      rw [splitAll_of_not_mem _ _ (amp_not_mem_serializePair p h2 h4)]
      rw [List.filter_cons_of_pos (by simp [serializePair])]
      simp only [List.filter_nil, List.map_cons, List.map_nil]
      simp only [serializePair]
      rw [splitAtFirst_append _ _ _ h1]
      simp
    | cons q rest2 =>
      obtain ⟨h1, h2, h3, h4, h5⟩ := hv p (List.mem_cons_self p (q :: rest2))
      have hvr : QueryValid (q :: rest2) := fun x hx => hv x (List.mem_cons_of_mem _ hx)
      show parseQuery (serializePair p ++ '&' :: serializeQuery (q :: rest2)) = p :: q :: rest2
      simp only [parseQuery]
      rw [splitAll_append _ _ _ (amp_not_mem_serializePair p h2 h4)]
      rw [List.filter_cons_of_pos (by simp [serializePair])]
      rw [List.map_cons]
      have hpair : ((splitAtFirst '=' (serializePair p)).1,
          ((splitAtFirst '=' (serializePair p)).2).getD []) = p := by
        simp only [serializePair]
        rw [splitAtFirst_append _ _ _ h1]
        simp
      have htail := ih hvr (by simp)
      simp only [parseQuery] at htail
      rw [hpair, htail]



structure ValidUrl (u : UrlModel) : Prop where
  scheme_ne : u.scheme ≠ []
  scheme_colon : ':' ∉ u.scheme
  scheme_qmark : '?' ∉ u.scheme
  scheme_hash : '#' ∉ u.scheme
  host_slash : '/' ∉ u.host
  host_qmark : '?' ∉ u.host
  host_hash : '#' ∉ u.host
  path_shape : ∃ t, u.path = '/' :: t
  path_qmark : '?' ∉ u.path
  path_hash : '#' ∉ u.path
  query_ok : QueryValid u.query

theorem pair_eta_of_snd (c : Char) (l b : List Char)
    (h : (splitAtFirst c l).2 = some b) :
    splitAtFirst c l = ((splitAtFirst c l).1, some b) := by
  rw [← h]

theorem parseQuery_valid (qs : List Char) (hhash : '#' ∉ qs) :
    QueryValid (parseQuery qs) := by
  intro p hp
  simp only [parseQuery, List.mem_map] at hp
  obtain ⟨seg, hseg, hpeq⟩ := hp
  have hsegmem := List.mem_filter.mp hseg
  obtain ⟨hamp, hsub⟩ := mem_splitAll '&' qs seg hsegmem.1
  have hkeq : p.1 = (splitAtFirst '=' seg).1 := by rw [← hpeq]
  have hk_mem : ∀ x ∈ p.1, x ∈ seg := by
    rw [hkeq]
    exact splitAtFirst_fst_mem '=' seg
  have hv_mem : ∀ x ∈ p.2, x ∈ seg := by
    cases hv2 : (splitAtFirst '=' seg).2 with
    | none =>
      have : p.2 = [] := by rw [← hpeq]; simp [hv2]
      rw [this]
      intro x hx
      exact absurd hx (List.not_mem_nil x)
    | some vv =>
      have hp2 : p.2 = vv := by rw [← hpeq]; simp [hv2]
      rw [hp2]
      exact splitAtFirst_snd_mem '=' seg _ vv (pair_eta_of_snd '=' seg vv hv2)
  refine ⟨?_, ?_, ?_, ?_, ?_⟩
  · rw [hkeq]
    exact splitAtFirst_fst_not_mem '=' seg
  · exact fun hmem => hamp (hk_mem _ hmem)
  · exact fun hmem => hhash (hsub _ (hk_mem _ hmem))
  · exact fun hmem => hamp (hv_mem _ hmem)
  · exact fun hmem => hhash (hsub _ (hv_mem _ hmem))

theorem parse_valid (l : List Char) (u : UrlModel) (h : parseUrl l = some u) : ValidUrl u := by
  simp only [parseUrl] at h
  cases hf : splitAtFirst '#' l with
  | mk f1 f2 =>
  rw [hf] at h
  simp only [] at h
  cases hq : splitAtFirst '?' f1 with
  | mk q1 q2 =>
  rw [hq] at h
  simp only [] at h
  cases hs : splitAtFirst ':' q1 with
  | mk s1 s2 =>
  rw [hs] at h
  simp only [] at h
  cases s2 with
  | none => exact absurd h (by simp)
  | some rest =>
  cases rest with
  | nil => exact absurd h (by simp)
  | cons c1 rest1 =>
  cases rest1 with
  | nil => exact absurd h (by simp)
  | cons c2 hostpath =>
  simp only [] at h
  by_cases hcond : c1 = '/' ∧ c2 = '/' ∧ ¬ s1 = []
  case neg => rw [if_neg hcond] at h; exact absurd h (by simp)
  rw [if_pos hcond] at h
  simp only [Option.some.injEq] at h
  subst h
  have hash_f1 : '#' ∉ f1 := by
    have hh := splitAtFirst_fst_not_mem '#' l
    rw [hf] at hh
    exact hh
  have qmark_q1 : '?' ∉ q1 := by
    have hh := splitAtFirst_fst_not_mem '?' f1
    rw [hq] at hh
    exact hh
  have colon_s1 : ':' ∉ s1 := by
    have hh := splitAtFirst_fst_not_mem ':' q1
    rw [hs] at hh
    exact hh
  have mem_q1_f1 : ∀ x ∈ q1, x ∈ f1 := by
    have hh := splitAtFirst_fst_mem '?' f1
    rw [hq] at hh
    exact hh
  have mem_s1_q1 : ∀ x ∈ s1, x ∈ q1 := by
    have hh := splitAtFirst_fst_mem ':' q1
    rw [hs] at hh
    exact hh
  have mem_hp_q1 : ∀ x ∈ hostpath, x ∈ q1 := by
    intro x hx
    exact splitAtFirst_snd_mem ':' q1 s1 (c1 :: c2 :: hostpath) hs x (by simp [hx])
  have mem_host_hp : ∀ x ∈ (splitAtFirst '/' hostpath).1, x ∈ hostpath :=
    splitAtFirst_fst_mem '/' hostpath
  refine ⟨hcond.2.2, colon_s1, ?_, ?_, splitAtFirst_fst_not_mem '/' hostpath, ?_, ?_, ?_, ?_, ?_, ?_⟩
  · exact fun hmem => qmark_q1 (mem_s1_q1 _ hmem)
  · exact fun hmem => hash_f1 (mem_q1_f1 _ (mem_s1_q1 _ hmem))
  · exact fun hmem => qmark_q1 (mem_hp_q1 _ (mem_host_hp _ hmem))
  · exact fun hmem => hash_f1 (mem_q1_f1 _ (mem_hp_q1 _ (mem_host_hp _ hmem)))
  · simp only []
    cases hhp : (splitAtFirst '/' hostpath).2 with
    | none => exact ⟨[], by simp [hhp]⟩
    | some p => exact ⟨p, by simp [hhp]⟩
  · simp only []
    cases hhp : (splitAtFirst '/' hostpath).2 with
    | none => decide
    | some p =>
      intro hmem
      rcases List.mem_cons.mp hmem with hh | hh
      · exact absurd hh (by decide)
      · exact qmark_q1 (mem_hp_q1 _
          (splitAtFirst_snd_mem '/' hostpath _ p (pair_eta_of_snd '/' hostpath p hhp) _ hh))
  · simp only []
    cases hhp : (splitAtFirst '/' hostpath).2 with
    | none => decide
    | some p =>
      intro hmem
      rcases List.mem_cons.mp hmem with hh | hh
      · exact absurd hh (by decide)
      · exact hash_f1 (mem_q1_f1 _ (mem_hp_q1 _
          (splitAtFirst_snd_mem '/' hostpath _ p (pair_eta_of_snd '/' hostpath p hhp) _ hh)))
  · simp only []
    cases q2 with
    | none => exact fun p hp => absurd hp (List.not_mem_nil p)
    | some qs =>
      refine parseQuery_valid qs ?_
      exact fun hmem => hash_f1 (splitAtFirst_snd_mem '?' f1 q1 qs hq _ hmem)


theorem hash_not_mem_serializeQuery (ps : List (List Char × List Char)) (hq : QueryValid ps) :
    '#' ∉ serializeQuery ps := by
  induction ps with
  | nil => simp [serializeQuery]
  | cons p rest ih =>
    obtain ⟨hx1, hx2, hk, hx4, hvhash⟩ := hq p (List.mem_cons_self p rest)
    cases rest with
    | nil => exact hash_not_mem_serializePair p hk hvhash
    | cons q rest2 =>
      intro hmem
      simp only [serializeQuery, List.mem_append, List.mem_cons] at hmem
      rcases hmem with h | h | h
      · exact hash_not_mem_serializePair p hk hvhash h
      · exact absurd h (by decide)
      · exact ih (fun x hx => hq x (List.mem_cons_of_mem _ hx)) h



theorem serialize_parse (u : UrlModel) (hv : ValidUrl u) :
    parseUrl (serializeUrl u) = some u := by
  obtain ⟨t, hpath⟩ := hv.path_shape
  have hcore_qmark : '?' ∉ u.scheme ++ ':' :: '/' :: '/' :: u.host ++ u.path := by
    intro hmem
    simp only [List.mem_append, List.mem_cons] at hmem
    rcases hmem with (h | h | h | h | h) | h
    · exact hv.scheme_qmark h
    · exact absurd h (by decide)
    · exact absurd h (by decide)
    · exact absurd h (by decide)
    · exact hv.host_qmark h
    · exact hv.path_qmark h
  have hcore_hash : '#' ∉ u.scheme ++ ':' :: '/' :: '/' :: u.host ++ u.path := by
    intro hmem
    simp only [List.mem_append, List.mem_cons] at hmem
    rcases hmem with (h | h | h | h | h) | h
    · exact hv.scheme_hash h
    · exact absurd h (by decide)
    · exact absurd h (by decide)
    · exact absurd h (by decide)
    · exact hv.host_hash h
    · exact hv.path_hash h
  have hbody_hash : '#' ∉ u.scheme ++ ':' :: '/' :: '/' :: u.host ++ u.path
      ++ (if u.query = [] then ([] : List Char) else '?' :: serializeQuery u.query) := by
    intro hmem
    rcases List.mem_append.mp hmem with h | h
    · exact hcore_hash h
    · by_cases hq : u.query = []
      · rw [if_pos hq] at h
        exact absurd h (List.not_mem_nil _)
      · rw [if_neg hq] at h
        rcases List.mem_cons.mp h with h | h
        · exact absurd h (by decide)
        · exact hash_not_mem_serializeQuery u.query hv.query_ok h
  have h1 : splitAtFirst '#' (serializeUrl u)
      = (u.scheme ++ ':' :: '/' :: '/' :: u.host ++ u.path
          ++ (if u.query = [] then ([] : List Char) else '?' :: serializeQuery u.query),
         u.fragment) := by
    cases hf : u.fragment with
    | none =>
      have hser : serializeUrl u = u.scheme ++ ':' :: '/' :: '/' :: u.host ++ u.path
          ++ (if u.query = [] then ([] : List Char) else '?' :: serializeQuery u.query) := by
        simp [serializeUrl, hf]
      rw [hser, splitAtFirst_of_not_mem _ _ hbody_hash]
    | some fr =>
      have hser : serializeUrl u = (u.scheme ++ ':' :: '/' :: '/' :: u.host ++ u.path
          ++ (if u.query = [] then ([] : List Char) else '?' :: serializeQuery u.query))
          ++ '#' :: fr := by
        simp [serializeUrl, hf]
      rw [hser, splitAtFirst_append _ _ _ hbody_hash]
  have h3 : splitAtFirst ':' (u.scheme ++ ':' :: '/' :: '/' :: u.host ++ u.path)
      = (u.scheme, some ('/' :: '/' :: (u.host ++ u.path))) := by
    have hassoc : u.scheme ++ ':' :: '/' :: '/' :: u.host ++ u.path
        = u.scheme ++ ':' :: ('/' :: '/' :: (u.host ++ u.path)) := by
      simp [List.append_assoc]
    rw [hassoc]
    exact splitAtFirst_append _ _ _ hv.scheme_colon
  have h4 : splitAtFirst '/' (u.host ++ u.path) = (u.host, some t) := by
    rw [hpath]
    exact splitAtFirst_append _ _ _ hv.host_slash
  by_cases hq : u.query = []
  · have h2 : splitAtFirst '?' (u.scheme ++ ':' :: '/' :: '/' :: u.host ++ u.path
        ++ (if u.query = [] then ([] : List Char) else '?' :: serializeQuery u.query))
        = (u.scheme ++ ':' :: '/' :: '/' :: u.host ++ u.path, none) := by
      rw [if_pos hq, List.append_nil]
      exact splitAtFirst_of_not_mem _ _ hcore_qmark
    simp only [parseUrl, h1]
    try simp only []
    rw [h2]
    try simp only []
    rw [h3]
    try simp only []
    rw [if_pos (⟨trivial, trivial, hv.scheme_ne⟩ : True ∧ True ∧ ¬ u.scheme = [])]
    rw [h4]
    try simp only []
    simp only [Option.some.injEq]
    rw [← hpath, ← hq]
  · have h2 : splitAtFirst '?' (u.scheme ++ ':' :: '/' :: '/' :: u.host ++ u.path
        ++ (if u.query = [] then ([] : List Char) else '?' :: serializeQuery u.query))
        = (u.scheme ++ ':' :: '/' :: '/' :: u.host ++ u.path, some (serializeQuery u.query)) := by
      rw [if_neg hq]
      exact splitAtFirst_append _ _ _ hcore_qmark
    simp only [parseUrl, h1]
    try simp only []
    rw [h2]
    try simp only []
    rw [h3]
    try simp only []
    rw [if_pos (⟨trivial, trivial, hv.scheme_ne⟩ : True ∧ True ∧ ¬ u.scheme = [])]
    rw [h4]
    try simp only []
    simp only [Option.some.injEq]
    rw [← hpath, parseQuery_serializeQuery u.query hv.query_ok hq]



theorem deleteParams_valid (u : UrlModel) (hv : ValidUrl u) : ValidUrl (deleteParams u) := by
  refine ⟨hv.scheme_ne, hv.scheme_colon, hv.scheme_qmark, hv.scheme_hash, hv.host_slash,
    hv.host_qmark, hv.host_hash, hv.path_shape, hv.path_qmark, hv.path_hash, ?_⟩
  intro p hp
  exact hv.query_ok p (List.mem_filter.mp hp).1

theorem deleteParams_idem (u : UrlModel) : deleteParams (deleteParams u) = deleteParams u := by
  simp only [deleteParams]
  rw [List.filter_eq_self.mpr (fun a ha => (List.mem_filter.mp ha).2)]

theorem getCacheKey_of_fail (l : List Char) (h : parseUrl l = none) : getCacheKey l = l := by
  simp [getCacheKey, h]

theorem getCacheKey_of_parse (l : List Char) (o : UrlModel) (h : parseUrl l = some o) :
    getCacheKey l = serializeUrl (deleteParams o) := by
  simp [getCacheKey, h]

/-- C8: key normalization is idempotent for every URL string; two URLs whose
parses agree after the cache-busting parameters are stripped normalize to the
same key; conversely equal keys force the stripped parses to agree (all other
query parameters participate in key identity); and a URL that fails to parse
falls back to the raw string, so key derivation never fails. -/
theorem c8_key_normalization :
    (∀ url, getCacheKey (getCacheKey url) = getCacheKey url)
    ∧ (∀ u1 u2 o1 o2, parseUrl u1 = some o1 → parseUrl u2 = some o2 →
        deleteParams o1 = deleteParams o2 → getCacheKey u1 = getCacheKey u2)
    ∧ (∀ u1 u2 o1 o2, parseUrl u1 = some o1 → parseUrl u2 = some o2 →
        getCacheKey u1 = getCacheKey u2 → deleteParams o1 = deleteParams o2)
    ∧ (∀ url, parseUrl url = none → getCacheKey url = url) := by
  have hrt : ∀ o, ValidUrl o → parseUrl (serializeUrl (deleteParams o)) = some (deleteParams o) :=
    fun o hv => serialize_parse _ (deleteParams_valid o hv)
  refine ⟨?_, ?_, ?_, getCacheKey_of_fail⟩
  · intro url
    cases hp : parseUrl url with
    | none =>
      have h0 := getCacheKey_of_fail url hp
      rw [h0]
      exact h0
    | some o =>
      have hv := parse_valid url o hp
      rw [getCacheKey_of_parse url o hp,
        getCacheKey_of_parse _ _ (hrt o hv), deleteParams_idem]
  · intro u1 u2 o1 o2 h1 h2 heq
    rw [getCacheKey_of_parse u1 o1 h1, getCacheKey_of_parse u2 o2 h2, heq]
  · intro u1 u2 o1 o2 h1 h2 heq
    have e1 := hrt o1 (parse_valid u1 o1 h1)
    have e2 := hrt o2 (parse_valid u2 o2 h2)
    rw [getCacheKey_of_parse u1 o1 h1, getCacheKey_of_parse u2 o2 h2] at heq
    rw [heq] at e1
    exact Option.some_injective _ (e1.symm.trans e2)

/-- Witness for C8: URLs differing only in the stripped parameter t or _
share a key. -/
theorem c8_key_normalization_witness :
    getCacheKey ("http://a/b?x=1&t=2".toList) = getCacheKey ("http://a/b?x=1&_=7".toList) :=
  c8_key_normalization.2.1 ("http://a/b?x=1&t=2".toList) ("http://a/b?x=1&_=7".toList)
    ⟨"http".toList, "a".toList, "/b".toList, [("x".toList, "1".toList), ("t".toList, "2".toList)], none⟩
    ⟨"http".toList, "a".toList, "/b".toList, [("x".toList, "1".toList), ("_".toList, "7".toList)], none⟩
    (by decide) (by decide) (by decide)

end VideoCache
